import Mathlib

/-!
Verification of the Cobol toolchain adapter (mesonbuild/compilers/cobol.py):
the argument-translator operations, the path helpers they use (posixpath
join / normpath / splitext, modelled for a POSIX build host), and the
sanity-check probe.
-/

namespace Cobol

/-- Strings are modelled as lists of characters so that structural induction
is available. -/
abbrev Str := List Char

/-- The characters of a string literal. -/
def str (s : String) : Str := s.data

/-- The number of initial slashes that posixpath.normpath preserves: POSIX
allows one or two initial slashes; three or more collapse to one. -/
def initSlashes (p : Str) : Nat :=
  if ['/', '/', '/'].isPrefixOf p then 1
  else if ['/', '/'].isPrefixOf p then 2
  else if ['/'].isPrefixOf p then 1
  else 0

/-- Python str.split on the slash character. -/
def splitOnSlash : Str → List Str
  | [] => [[]]
  | c :: rest =>
    if c = '/' then [] :: splitOnSlash rest
    else (c :: (splitOnSlash rest).headI) :: (splitOnSlash rest).tail

/-- Python sep.join for the slash separator. -/
def joinSlash : List Str → Str
  | [] => []
  | [a] => a
  | a :: rest => a ++ '/' :: joinSlash rest

/-- One step of posixpath.normpath's component scan.  The accumulator is kept
reversed: its head is the component Python's new_comps list holds last. -/
def normStep (rooted : Bool) (acc : List Str) (comp : Str) : List Str :=
  if comp = [] ∨ comp = ['.'] then acc
  else if comp = ['.', '.'] then
    match acc with
    | [] => if rooted then [] else [comp]
    | c :: rest => if c = ['.', '.'] then comp :: acc else rest
  else comp :: acc

/-- The components posixpath.normpath keeps, in order. -/
def normComps (rooted : Bool) (comps : List Str) : List Str :=
  (comps.foldl (normStep rooted) []).reverse

/-- posixpath.normpath on the POSIX build host. -/
def normpath (p : Str) : Str :=
  if p = [] then ['.']
  else if List.replicate (initSlashes p) '/' ++
      joinSlash (normComps (initSlashes p != 0) (splitOnSlash p)) = [] then ['.']
  else List.replicate (initSlashes p) '/' ++
      joinSlash (normComps (initSlashes p != 0) (splitOnSlash p))

/-- posixpath.join restricted to two arguments, as the adapter uses it. -/
def pathJoin (a b : Str) : Str :=
  if ['/'].isPrefixOf b then b
  else if a = [] ∨ a.getLast? = some '/' then a ++ b
  else a ++ '/' :: b

/-- The index of the last occurrence of a character, Python str.rfind. -/
def rfind (c : Char) : Str → Option Nat
  | [] => none
  | a :: rest =>
    match rfind c rest with
    | some i => some (i + 1)
    | none => if a = c then some 0 else none

/-- posixpath.splitext: split the extension at the last dot of the last path
component, unless every character of that component before the dot is itself
a dot. -/
def splitext (p : Str) : Str × Str :=
  let sepIndex : Int := match rfind '/' p with | some i => (i : Int) | none => -1
  let dotIndex : Int := match rfind '.' p with | some i => (i : Int) | none => -1
  if sepIndex < dotIndex then
    if ((p.drop (sepIndex + 1).toNat).take
        (dotIndex.toNat - (sepIndex + 1).toNat)).all (fun c => c == '.') then
      (p, [])
    else (p.take dotIndex.toNat, p.drop dotIndex.toNat)
  else (p, [])

/-- The last path component of a path: the text after the final slash. -/
def lastComponent (p : Str) : Str :=
  p.drop (match rfind '/' p with | some i => i + 1 | none => 0)

/-- The toolchain identity fields of the CobolCompiler that the verified
operations read. -/
structure CobolCompiler where
  exelist : List Str
  version : Str
  is_cross : Bool
  name_str : Str

/-- Modelled from the spec: name_string of the generic compiler base class
renders the toolchain's name for diagnostic messages; the base class is not
part of this adapter's source, so the rendered name is kept abstract as a
field of the identity record. -/
def name_string (c : CobolCompiler) : Str := c.name_str

/-- CobolCompiler.get_pic_args. -/
def get_pic_args : List Str := []

/-- CobolCompiler.get_pie_args. -/
def get_pie_args : List Str := []

/-- CobolCompiler.needs_static_linker. -/
def needs_static_linker : Bool := true

/-- CobolCompiler.get_werror_args. -/
def get_werror_args : List Str := [str "-Werror"]

/-- CobolCompiler.get_depfile_suffix. -/
def get_depfile_suffix : Str := str "d"

/-- CobolCompiler.depfile_for_object. -/
def depfile_for_object (objfile : Str) : Str :=
  (splitext objfile).1 ++ str "." ++ get_depfile_suffix

/-- CobolCompiler.get_dependency_gen_args. -/
def get_dependency_gen_args (outtarget outfile : Str) : List Str :=
  [str "-MT", depfile_for_object outtarget]

/-- CobolCompiler.get_output_args. -/
def get_output_args (target : Str) : List Str := [str "-o", target]

/-- CobolCompiler.get_always_args. -/
def get_always_args : List Str := []

/-- CobolCompiler.get_warn_args. -/
def get_warn_args (level : Str) : List Str := []

/-- CobolCompiler.get_include_args. -/
def get_include_args (path : Str) (is_system : Bool) : List Str :=
  [['-', 'I'] ++ path]

/-- CobolCompiler.get_compile_only_args. -/
def get_compile_only_args : List Str := [str "-c"]

/-- The loop body of compute_parameters_with_absolute_paths on one token:
when the token's first two characters are -I or -L, its suffix is rebased
onto the build directory and normalized; otherwise it is left in place. -/
def normalizeToken (build_dir : Str) (i : Str) : Str :=
  if i.take 2 = ['-', 'I'] ∨ i.take 2 = ['-', 'L'] then
    i.take 2 ++ normpath (pathJoin build_dir (i.drop 2))
  else i

/-- CobolCompiler.compute_parameters_with_absolute_paths: the in-place update
loop, rendered as a positional map of its body over the token list. -/
def compute_parameters_with_absolute_paths (parameter_list : List Str)
    (build_dir : Str) : List Str :=
  parameter_list.map (normalizeToken build_dir)

/-- The invariant of the normpath scan accumulator: components are nonempty,
slash-free and not single dots; dot-dot components sit only at the bottom of
the reversed accumulator; a rooted scan keeps no dot-dot components at all. -/
def AccInv (rooted : Bool) (acc : List Str) : Prop :=
  ∃ front back, acc = front ++ back ∧
    (∀ c ∈ front, c ≠ [] ∧ c ≠ ['.'] ∧ c ≠ ['.', '.'] ∧ '/' ∉ c) ∧
    (∀ c ∈ back, c = ['.', '.']) ∧
    (rooted = true → back = [])

/-- A sanity-probe failure: the compile step failed, or the produced binary
was not runnable. -/
inductive SanityError where
  | toolchainUnusable : Str → SanityError
  | executableUnrunnable : Str → SanityError
deriving DecidableEq

/-- The outcome of one sanity probe, together with whether the produced
binary was executed. -/
structure SanityOutcome where
  result : Option SanityError
  binaryExecuted : Bool

/-- The behaviour of the host when processes are spawned: the exit code each
command line returns.  The probe is deterministic given this environment. -/
structure ProcWorld where
  exitCode : List Str → Int

/-- CobolCompiler.sanity_check: write the fixed test program, compile it with
exelist plus the -x, -o arguments; on non-zero exit report the
unusable-toolchain error; under cross compilation stop with success;
otherwise run the produced binary and report the not-runnable error when its
exit code is non-zero. -/
def sanity_check (c : CobolCompiler) (work_dir : Str) (w : ProcWorld) :
    SanityOutcome :=
  if w.exitCode (c.exelist ++ [str "-x", str "-o",
      pathJoin work_dir (str "coboltest"), str "coboltest.cob"]) ≠ 0 then
    ⟨some (SanityError.toolchainUnusable
      (str "Cobol compiler " ++ name_string c ++
        str " cannot compile programs.")), false⟩
  else if c.is_cross then ⟨none, false⟩
  else if w.exitCode [pathJoin work_dir (str "coboltest")] ≠ 0 then
    ⟨some (SanityError.executableUnrunnable
      (str "Executables created by Cobol compiler " ++ name_string c ++
        str " are not runnable.")), true⟩
  else ⟨none, true⟩

/-- C7: get_include_args returns exactly the one-token list "-I" ++ path, and
the is_system flag has no effect on the output. -/
theorem include_args_spec (path : Str) (is_system : Bool) :
    get_include_args path is_system = [['-', 'I'] ++ path] ∧
    get_include_args path is_system = get_include_args path (!is_system) :=
  ⟨rfl, rfl⟩

/-- C8: the PIC-args, PIE-args, warning-args and always-on-args operations
return the empty token sequence for every input. -/
theorem empty_args_ops (level : Str) :
    get_pic_args = ([] : List Str) ∧ get_pie_args = ([] : List Str) ∧
    get_warn_args level = [] ∧ get_always_args = ([] : List Str) :=
  ⟨rfl, rfl, rfl, rfl⟩

/-- C2: when the compile step of the sanity probe exits with a non-zero
status, the probe fails with the toolchain-unusable error whose message names
the toolchain via name_string, and the produced binary is never executed. -/
theorem sanity_check_compile_failure (c : CobolCompiler) (work_dir : Str)
    (w : ProcWorld)
    (h : w.exitCode (c.exelist ++ [str "-x", str "-o",
      pathJoin work_dir (str "coboltest"), str "coboltest.cob"]) ≠ 0) :
    (sanity_check c work_dir w).result =
      some (SanityError.toolchainUnusable (str "Cobol compiler " ++
        name_string c ++ str " cannot compile programs.")) ∧
    (∃ a b, str "Cobol compiler " ++ name_string c ++
      str " cannot compile programs." = a ++ name_string c ++ b) ∧
    (sanity_check c work_dir w).binaryExecuted = false := by
  unfold sanity_check
  rw [if_pos h]
  exact ⟨rfl, ⟨str "Cobol compiler ", str " cannot compile programs.", rfl⟩, rfl⟩

/-- Witness for C2 at a concrete toolchain and a host where every spawned
process exits 1. -/
theorem sanity_check_compile_failure_witness :
    (ProcWorld.mk fun _ => 1).exitCode
        ((CobolCompiler.mk [str "cobc"] (str "3.1") false (str "cobc")).exelist ++
          [str "-x", str "-o", pathJoin (str "/w") (str "coboltest"),
            str "coboltest.cob"]) ≠ 0 ∧
    ((sanity_check (CobolCompiler.mk [str "cobc"] (str "3.1") false (str "cobc"))
        (str "/w") (ProcWorld.mk fun _ => 1)).result =
      some (SanityError.toolchainUnusable (str "Cobol compiler " ++
        name_string (CobolCompiler.mk [str "cobc"] (str "3.1") false
          (str "cobc")) ++ str " cannot compile programs.")) ∧
      (∃ a b, str "Cobol compiler " ++
        name_string (CobolCompiler.mk [str "cobc"] (str "3.1") false
          (str "cobc")) ++ str " cannot compile programs." =
          a ++ name_string (CobolCompiler.mk [str "cobc"] (str "3.1") false
            (str "cobc")) ++ b) ∧
      (sanity_check (CobolCompiler.mk [str "cobc"] (str "3.1") false
          (str "cobc")) (str "/w")
        (ProcWorld.mk fun _ => 1)).binaryExecuted = false) :=
  ⟨by decide, sanity_check_compile_failure _ _ _ (by decide)⟩

/-- C5: when the compile step exits 0 and the cross-compilation flag is set,
the probe succeeds and the produced binary is never executed. -/
theorem sanity_check_cross_success (c : CobolCompiler) (work_dir : Str)
    (w : ProcWorld)
    (hc : w.exitCode (c.exelist ++ [str "-x", str "-o",
      pathJoin work_dir (str "coboltest"), str "coboltest.cob"]) = 0)
    (hx : c.is_cross = true) :
    (sanity_check c work_dir w).result = none ∧
    (sanity_check c work_dir w).binaryExecuted = false := by
  unfold sanity_check
  rw [if_neg (fun hne => hne hc), if_pos hx]
  exact ⟨rfl, rfl⟩

/-- Witness for C5 at a concrete cross toolchain and a host where every
spawned process exits 0. -/
theorem sanity_check_cross_success_witness :
    (ProcWorld.mk fun _ => 0).exitCode
        ((CobolCompiler.mk [str "cobc"] (str "3.1") true (str "cobc")).exelist ++
          [str "-x", str "-o", pathJoin (str "/w") (str "coboltest"),
            str "coboltest.cob"]) = 0 ∧
    (CobolCompiler.mk [str "cobc"] (str "3.1") true (str "cobc")).is_cross = true ∧
    ((sanity_check (CobolCompiler.mk [str "cobc"] (str "3.1") true (str "cobc"))
        (str "/w") (ProcWorld.mk fun _ => 0)).result = none ∧
      (sanity_check (CobolCompiler.mk [str "cobc"] (str "3.1") true
          (str "cobc")) (str "/w")
        (ProcWorld.mk fun _ => 0)).binaryExecuted = false) :=
  ⟨by decide, by decide, sanity_check_cross_success _ _ _ (by decide) (by decide)⟩

/-- C6: when the compile step exits 0, the configuration is not
cross-compiling, and the produced binary exits with a non-zero status, the
probe fails with the executable-unrunnable error naming the toolchain. -/
theorem sanity_check_run_failure (c : CobolCompiler) (work_dir : Str)
    (w : ProcWorld)
    (hc : w.exitCode (c.exelist ++ [str "-x", str "-o",
      pathJoin work_dir (str "coboltest"), str "coboltest.cob"]) = 0)
    (hx : c.is_cross = false)
    (hr : w.exitCode [pathJoin work_dir (str "coboltest")] ≠ 0) :
    (sanity_check c work_dir w).result =
      some (SanityError.executableUnrunnable
        (str "Executables created by Cobol compiler " ++ name_string c ++
          str " are not runnable.")) ∧
    (∃ a b, str "Executables created by Cobol compiler " ++ name_string c ++
      str " are not runnable." = a ++ name_string c ++ b) := by
  unfold sanity_check
  rw [if_neg (fun hne => hne hc), if_neg (by simp [hx]), if_pos hr]
  exact ⟨rfl, ⟨str "Executables created by Cobol compiler ",
    str " are not runnable.", rfl⟩⟩

/-- Witness for C6 at a concrete non-cross toolchain on a host where the
compile succeeds and the produced binary exits 2. -/
theorem sanity_check_run_failure_witness :
    (ProcWorld.mk fun cmd =>
        if cmd = [pathJoin (str "/w") (str "coboltest")] then 2 else 0).exitCode
        ((CobolCompiler.mk [str "cobc"] (str "3.1") false (str "cobc")).exelist ++
          [str "-x", str "-o", pathJoin (str "/w") (str "coboltest"),
            str "coboltest.cob"]) = 0 ∧
    (CobolCompiler.mk [str "cobc"] (str "3.1") false (str "cobc")).is_cross = false ∧
    (ProcWorld.mk fun cmd =>
        if cmd = [pathJoin (str "/w") (str "coboltest")] then 2 else 0).exitCode
        [pathJoin (str "/w") (str "coboltest")] ≠ 0 ∧
    ((sanity_check (CobolCompiler.mk [str "cobc"] (str "3.1") false
          (str "cobc")) (str "/w")
        (ProcWorld.mk fun cmd =>
          if cmd = [pathJoin (str "/w") (str "coboltest")] then 2 else 0)).result =
      some (SanityError.executableUnrunnable
        (str "Executables created by Cobol compiler " ++
          name_string (CobolCompiler.mk [str "cobc"] (str "3.1") false
            (str "cobc")) ++ str " are not runnable.")) ∧
      (∃ a b, str "Executables created by Cobol compiler " ++
        name_string (CobolCompiler.mk [str "cobc"] (str "3.1") false
          (str "cobc")) ++ str " are not runnable." =
          a ++ name_string (CobolCompiler.mk [str "cobc"] (str "3.1") false
            (str "cobc")) ++ b)) :=
  ⟨by decide, by decide, by decide,
    sanity_check_run_failure _ _ _ (by decide) (by decide) (by decide)⟩

/-- A list's first two characters equal a two-character pattern exactly when
the pattern is a prefix of the list. -/
theorem take_two_eq_iff (t : Str) (a b : Char) :
    t.take 2 = [a, b] ↔ [a, b].isPrefixOf t = true := by
  match t with
  | [] => simp [List.isPrefixOf]
  | [x] => simp [List.isPrefixOf]
  | x :: y :: ys =>
    have h2 : (x :: y :: ys).take 2 = [x, y] := rfl
    rw [h2]
    simp only [List.isPrefixOf, Bool.and_eq_true, beq_iff_eq,
      List.cons.injEq, and_true]
    constructor
    · rintro ⟨rfl, rfl⟩; exact ⟨rfl, rfl⟩
    · rintro ⟨rfl, rfl⟩; exact ⟨rfl, rfl⟩

/-- C1: compute_parameters_with_absolute_paths preserves length and order;
positionally, each token beginning with -I or -L has its path suffix replaced
by the normalized join of the build directory with that suffix, and every
other token is exactly the input token at that position. -/
theorem compute_parameters_pointwise (parameter_list : List Str)
    (build_dir : Str) :
    (compute_parameters_with_absolute_paths parameter_list build_dir).length =
      parameter_list.length ∧
    ∀ (i : Nat) (t : Str), parameter_list[i]? = some t →
      (compute_parameters_with_absolute_paths parameter_list build_dir)[i]? =
        some (if ['-', 'I'].isPrefixOf t || ['-', 'L'].isPrefixOf t then
          t.take 2 ++ normpath (pathJoin build_dir (t.drop 2)) else t) := by
  constructor
  · simp [compute_parameters_with_absolute_paths]
  · intro i t ht
    have hcond : (['-', 'I'].isPrefixOf t || ['-', 'L'].isPrefixOf t) = true ↔
        (t.take 2 = ['-', 'I'] ∨ t.take 2 = ['-', 'L']) := by
      rw [Bool.or_eq_true, ← take_two_eq_iff, ← take_two_eq_iff]
    simp only [compute_parameters_with_absolute_paths, normalizeToken,
      List.getElem?_map, ht, Option.map_some']
    congr 1
    by_cases h : t.take 2 = ['-', 'I'] ∨ t.take 2 = ['-', 'L']
    · rw [if_pos h, if_pos (hcond.mpr h)]
    · rw [if_neg h, if_neg (fun hb => h (hcond.mp hb))]

/-- Witness for C1 at a concrete token list, index and build directory. -/
theorem compute_parameters_pointwise_witness :
    ([str "-Ifoo", str "x"] : List Str)[0]? = some (str "-Ifoo") ∧
    (compute_parameters_with_absolute_paths [str "-Ifoo", str "x"]
        (str "/b"))[0]? =
      some (if ['-', 'I'].isPrefixOf (str "-Ifoo") ||
          ['-', 'L'].isPrefixOf (str "-Ifoo") then
        (str "-Ifoo").take 2 ++
          normpath (pathJoin (str "/b") ((str "-Ifoo").drop 2))
      else str "-Ifoo") :=
  ⟨by decide, (compute_parameters_pointwise [str "-Ifoo", str "x"]
    (str "/b")).2 0 (str "-Ifoo") (by decide)⟩

/-- C10: compute_parameters_with_absolute_paths is total over every list of
strings, and a token shorter than two characters passes through unchanged,
because the two-character prefix test fails to match it. -/
theorem compute_parameters_short_token (parameter_list : List Str)
    (build_dir : Str) :
    ∀ (i : Nat) (t : Str), parameter_list[i]? = some t → t.length < 2 →
      (compute_parameters_with_absolute_paths parameter_list build_dir)[i]? =
        some t := by
  intro i t ht hlen
  simp only [compute_parameters_with_absolute_paths, normalizeToken,
    List.getElem?_map, ht, Option.map_some']
  rw [if_neg]
  rintro (h | h) <;>
  · have hl := congrArg List.length h
    simp [List.length_take] at hl
    omega

/-- Witness for C10 at a concrete one-character token. -/
theorem compute_parameters_short_token_witness :
    ([['x'], str "-Iz"] : List Str)[0]? = some ['x'] ∧ (['x'] : Str).length < 2 ∧
    (compute_parameters_with_absolute_paths [['x'], str "-Iz"]
        (str "/b"))[0]? = some ['x'] :=
  ⟨by decide, by decide, compute_parameters_short_token [['x'], str "-Iz"]
    (str "/b") 0 ['x'] (by decide) (by decide)⟩

/-- splitOnSlash never returns the empty component list. -/
theorem splitOnSlash_ne_nil (p : Str) : splitOnSlash p ≠ [] := by
  match p with
  | [] => simp [splitOnSlash]
  | c :: rest =>
    by_cases h : c = '/'
    · simp [splitOnSlash, h]
    · simp [splitOnSlash, h]

/-- The default head of a nonempty list is one of its members. -/
theorem headI_mem_of_ne_nil (l : List Str) (h : l ≠ []) : l.headI ∈ l := by
  match l with
  | a :: rest => exact List.mem_cons_self _ _

/-- Components produced by splitOnSlash contain no slash. -/
theorem splitOnSlash_no_slash (p : Str) : ∀ c ∈ splitOnSlash p, '/' ∉ c := by
  induction p with
  | nil =>
    intro c hc
    simp [splitOnSlash] at hc
    simp [hc]
  | cons a rest ih =>
    intro c hc
    by_cases h : a = '/'
    · simp only [splitOnSlash, if_pos h, List.mem_cons] at hc
      rcases hc with hc | hc
      · simp [hc]
      · exact ih c hc
    · simp only [splitOnSlash, if_neg h, List.mem_cons] at hc
      rcases hc with hc | hc
      · subst hc
        intro hmem
        rcases List.mem_cons.mp hmem with h1 | h1
        · exact h h1.symm
        · have hhead : (splitOnSlash rest).headI ∈ splitOnSlash rest :=
            headI_mem_of_ne_nil _ (splitOnSlash_ne_nil rest)
          exact ih _ hhead h1
      · exact ih c (List.mem_of_mem_tail hc)

/-- A slash-free string splits into a single component. -/
theorem splitOnSlash_of_no_slash (s : Str) (h : '/' ∉ s) :
    splitOnSlash s = [s] := by
  induction s with
  | nil => rfl
  | cons c rest ih =>
    have hc : c ≠ '/' := fun he => h (he ▸ List.mem_cons_self c rest)
    have hr : '/' ∉ rest := fun hm => h (List.mem_cons_of_mem c hm)
    simp [splitOnSlash, hc, ih hr]

/-- Splitting a slash-free component, a slash, then a remainder. -/
theorem splitOnSlash_append_slash_cons (a t : Str) (h : '/' ∉ a) :
    splitOnSlash (a ++ '/' :: t) = a :: splitOnSlash t := by
  induction a with
  | nil => simp [splitOnSlash]
  | cons c restA ih =>
    have hc : c ≠ '/' := fun he => h (he ▸ List.mem_cons_self c restA)
    have hr : '/' ∉ restA := fun hm => h (List.mem_cons_of_mem c hm)
    simp [splitOnSlash, hc, ih hr]

/-- Splitting the join of nonempty many slash-free components recovers the
components. -/
theorem splitOnSlash_joinSlash (comps : List Str) (hne : comps ≠ [])
    (hsf : ∀ c ∈ comps, '/' ∉ c) : splitOnSlash (joinSlash comps) = comps := by
  induction comps with
  | nil => exact absurd rfl hne
  | cons a rest ih =>
    cases rest with
    | nil =>
      simp [joinSlash, splitOnSlash_of_no_slash a (hsf a (List.mem_cons_self a []))]
    | cons b rest2 =>
      have ha : '/' ∉ a := hsf a (List.mem_cons_self _ _)
      have hjoin : joinSlash (a :: b :: rest2) = a ++ '/' :: joinSlash (b :: rest2) :=
        rfl
      rw [hjoin, splitOnSlash_append_slash_cons a _ ha,
        ih (by simp) (fun c hc => hsf c (List.mem_cons_of_mem a hc))]

/-- Splitting after leading slashes yields leading empty components. -/
theorem splitOnSlash_replicate (k : Nat) (s : Str) :
    splitOnSlash (List.replicate k '/' ++ s) =
      List.replicate k [] ++ splitOnSlash s := by
  induction k with
  | zero => simp
  | succ n ih => simp [List.replicate_succ, splitOnSlash, ih]

/-- Empty components are skipped by the normpath scan. -/
theorem normStep_nil (rooted : Bool) (acc : List Str) :
    normStep rooted acc [] = acc := rfl

/-- The scan ignores any run of empty components. -/
theorem foldl_normStep_replicate (rooted : Bool) (k : Nat) (acc : List Str)
    (l : List Str) :
    (List.replicate k [] ++ l).foldl (normStep rooted) acc =
      l.foldl (normStep rooted) acc := by
  induction k with
  | zero => simp
  | succ n ih =>
    simp only [List.replicate_succ, List.cons_append, List.foldl_cons,
      normStep_nil]
    exact ih

/-- Good plain components are simply pushed by the scan. -/
theorem foldl_normStep_push (rooted : Bool) (l : List Str) (acc : List Str)
    (h : ∀ c ∈ l, c ≠ [] ∧ c ≠ ['.'] ∧ c ≠ ['.', '.']) :
    l.foldl (normStep rooted) acc = l.reverse ++ acc := by
  induction l generalizing acc with
  | nil => simp
  | cons a rest ih =>
    obtain ⟨ha1, ha2, ha3⟩ := h a (List.mem_cons_self _ _)
    have hstep : normStep rooted acc a = a :: acc := by
      simp [normStep, ha1, ha2, ha3]
    rw [List.foldl_cons, hstep,
      ih (a :: acc) (fun c hc => h c (List.mem_cons_of_mem _ hc))]
    simp

/-- In an unrooted scan, dot-dot components stack on a dot-dot accumulator. -/
theorem foldl_normStep_dotdots (l : List Str) (acc : List Str)
    (hl : ∀ c ∈ l, c = ['.', '.']) (hacc : ∀ c ∈ acc, c = ['.', '.']) :
    l.foldl (normStep false) acc = l.reverse ++ acc := by
  induction l generalizing acc with
  | nil => simp
  | cons a rest ih =>
    have ha := hl a (List.mem_cons_self _ _)
    have hstep : normStep false acc a = a :: acc := by
      subst ha
      match acc with
      | [] => decide
      | c :: rest2 =>
        have hc := hacc c (List.mem_cons_self _ _)
        simp [normStep, hc]
    rw [List.foldl_cons, hstep,
      ih (a :: acc) (fun c hc => hl c (List.mem_cons_of_mem _ hc))
        (fun c hc => by
          rcases List.mem_cons.mp hc with hc | hc
          · exact hc ▸ ha
          · exact hacc c hc)]
    simp

/-- The empty accumulator satisfies the scan invariant. -/
theorem AccInv_nil (rooted : Bool) : AccInv rooted [] :=
  ⟨[], [], rfl, by simp, by simp, fun _ => rfl⟩

/-- One scan step preserves the accumulator invariant. -/
theorem AccInv_normStep (rooted : Bool) (acc : List Str) (comp : Str)
    (hsl : '/' ∉ comp) (h : AccInv rooted acc) :
    AccInv rooted (normStep rooted acc comp) := by
  obtain ⟨front, back, hacc, hf, hb, hr⟩ := h
  by_cases h1 : comp = [] ∨ comp = ['.']
  · unfold normStep
    rw [if_pos h1]
    exact ⟨front, back, hacc, hf, hb, hr⟩
  · by_cases h2 : comp = ['.', '.']
    · unfold normStep
      rw [if_neg h1, if_pos h2]
      cases front with
      | cons f fs =>
        have hfs : acc = f :: (fs ++ back) := by simp [hacc]
        rw [hfs]
        have hfne : f ≠ ['.', '.'] := (hf f (List.mem_cons_self _ _)).2.2.1
        simp only [if_neg hfne]
        exact ⟨fs, back, rfl,
          fun c hc => hf c (List.mem_cons_of_mem _ hc), hb, hr⟩
      | nil =>
        cases back with
        | nil =>
          have hacc0 : acc = [] := by simp [hacc]
          rw [hacc0]
          by_cases hroot : rooted = true
          · simp only [hroot, if_true]
            exact AccInv_nil true
          · have hfalse : rooted = false := by
              cases rooted
              · rfl
              · exact absurd rfl hroot
            simp only [hfalse, if_false]
            exact ⟨[], [comp], rfl, by simp, by simp [h2],
              fun hh => absurd hh (by simp [hfalse])⟩
        | cons b bs =>
          have haccb : acc = b :: bs := by simp [hacc]
          rw [haccb]
          have hbdd : b = ['.', '.'] := hb b (List.mem_cons_self _ _)
          simp only [if_pos hbdd]
          have hroot : rooted = false := by
            cases rooted
            · rfl
            · exact absurd (hr rfl) (by simp [hacc, haccb])
          refine ⟨[], comp :: b :: bs, rfl, by simp, ?_, by simp [hroot]⟩
          intro c hc
          rcases List.mem_cons.mp hc with hc | hc
          · exact hc ▸ h2
          · rcases List.mem_cons.mp hc with hc | hc
            · exact hc ▸ hbdd
            · exact hb c (by simpa [hacc] using List.mem_cons_of_mem b hc)
    · unfold normStep
      rw [if_neg h1, if_neg h2]
      push_neg at h1
      exact ⟨comp :: front, back, by simp [hacc],
        fun c hc => by
          rcases List.mem_cons.mp hc with hc | hc
          · exact hc ▸ ⟨h1.1, h1.2, h2, hsl⟩
          · exact hf c hc,
        hb, hr⟩

/-- The scan maintains its invariant over any slash-free component list. -/
theorem AccInv_foldl (rooted : Bool) (l : List Str) (acc : List Str)
    (hsf : ∀ c ∈ l, '/' ∉ c) (h : AccInv rooted acc) :
    AccInv rooted (l.foldl (normStep rooted) acc) := by
  induction l generalizing acc with
  | nil => exact h
  | cons a rest ih =>
    rw [List.foldl_cons]
    exact ih (normStep rooted acc a)
      (fun c hc => hsf c (List.mem_cons_of_mem _ hc))
      (AccInv_normStep rooted acc a (hsf a (List.mem_cons_self _ _)) h)

/-- Every component an invariant accumulator holds is nonempty, not a dot,
and slash-free. -/
theorem AccInv_elems (rooted : Bool) (acc : List Str) (h : AccInv rooted acc) :
    ∀ c ∈ acc, c ≠ [] ∧ c ≠ ['.'] ∧ '/' ∉ c := by
  obtain ⟨front, back, rfl, hf, hb, hr⟩ := h
  intro c hc
  rcases List.mem_append.mp hc with hc | hc
  · exact ⟨(hf c hc).1, (hf c hc).2.1, (hf c hc).2.2.2⟩
  · rw [hb c hc]
    refine ⟨by simp, by simp, by simp⟩

/-- Re-scanning the components an earlier scan produced changes nothing. -/
theorem foldl_normStep_reverse (rooted : Bool) (acc : List Str)
    (h : AccInv rooted acc) :
    acc.reverse.foldl (normStep rooted) [] = acc := by
  obtain ⟨front, back, rfl, hf, hb, hr⟩ := h
  rw [List.reverse_append, List.foldl_append]
  have hfront : ∀ c ∈ front.reverse, c ≠ [] ∧ c ≠ ['.'] ∧ c ≠ ['.', '.'] :=
    fun c hc =>
      ⟨(hf c (List.mem_reverse.mp hc)).1, (hf c (List.mem_reverse.mp hc)).2.1,
        (hf c (List.mem_reverse.mp hc)).2.2.1⟩
  by_cases hroot : rooted = true
  · rw [hr hroot]
    simp only [List.reverse_nil, List.foldl_nil]
    rw [foldl_normStep_push rooted front.reverse [] hfront]
    simp
  · have hfalse : rooted = false := by
      cases rooted
      · rfl
      · exact absurd rfl hroot
    subst hfalse
    rw [foldl_normStep_dotdots back.reverse []
      (fun c hc => hb c (List.mem_reverse.mp hc)) (by simp)]
    simp only [List.append_nil, List.reverse_reverse]
    rw [foldl_normStep_push false front.reverse back hfront]
    simp

/-- The normalized form of a nonempty path, straight from the definition. -/
theorem normpath_eq (p : Str) (hp : p ≠ []) :
    normpath p = if List.replicate (initSlashes p) '/' ++
        joinSlash (normComps (initSlashes p != 0) (splitOnSlash p)) = []
      then ['.']
      else List.replicate (initSlashes p) '/' ++
        joinSlash (normComps (initSlashes p != 0) (splitOnSlash p)) := by
  rw [normpath, if_neg hp]

/-- The slash count of any path is at most two. -/
theorem initSlashes_le_two (p : Str) : initSlashes p ≤ 2 := by
  rw [initSlashes]
  split_ifs <;> omega

/-- The slash count of leading slashes followed by a non-slash character. -/
theorem initSlashes_replicate_cons (k : Nat) (hk : k ≤ 2) (ch : Char)
    (hch : ch ≠ '/') (t : Str) :
    initSlashes (List.replicate k '/' ++ ch :: t) = k := by
  interval_cases k <;>
    simp [initSlashes, List.isPrefixOf, hch, Ne.symm hch]

/-- The join of a nonempty list of good components starts with a non-slash
character. -/
theorem joinSlash_head (C : List Str) (hC : C ≠ [])
    (hgood : ∀ c ∈ C, c ≠ [] ∧ '/' ∉ c) :
    ∃ ch q, joinSlash C = ch :: q ∧ ch ≠ '/' := by
  match C with
  | c :: rest =>
    obtain ⟨hne, hsl⟩ := hgood c (List.mem_cons_self _ _)
    match c with
    | [] => exact absurd rfl hne
    | ch :: c' =>
      have hch : ch ≠ '/' := fun he => hsl (he ▸ List.mem_cons_self _ _)
      cases rest with
      | nil => exact ⟨ch, c', rfl, hch⟩
      | cons b r =>
        exact ⟨ch, c' ++ '/' :: joinSlash (b :: r), rfl, hch⟩

/-- Normalizing the rebuilt output of a scan that kept at least one
component is the identity. -/
theorem normpath_rebuild (k : Nat) (hk : k ≤ 2) (A : List Str)
    (hA : AccInv (k != 0) A) (hAne : A ≠ []) :
    normpath (List.replicate k '/' ++ joinSlash A.reverse) =
      List.replicate k '/' ++ joinSlash A.reverse := by
  have hgood := AccInv_elems _ _ hA
  have hCne : A.reverse ≠ [] := by simpa using hAne
  obtain ⟨ch, q, hjoin, hch⟩ := joinSlash_head A.reverse hCne
    (fun c hc => ⟨(hgood c (List.mem_reverse.mp hc)).1,
      (hgood c (List.mem_reverse.mp hc)).2.2⟩)
  have hslash : ∀ c ∈ A.reverse, '/' ∉ c :=
    fun c hc => (hgood c (List.mem_reverse.mp hc)).2.2
  have hout_ne : List.replicate k '/' ++ joinSlash A.reverse ≠ [] := by
    rw [hjoin]
    simp
  rw [normpath_eq _ hout_ne]
  have hinit : initSlashes (List.replicate k '/' ++ joinSlash A.reverse) = k := by
    rw [hjoin]
    exact initSlashes_replicate_cons k hk ch hch q
  have hsplit : splitOnSlash (List.replicate k '/' ++ joinSlash A.reverse) =
      List.replicate k [] ++ A.reverse := by
    rw [splitOnSlash_replicate, splitOnSlash_joinSlash A.reverse hCne hslash]
  rw [hinit, hsplit, normComps, foldl_normStep_replicate,
    foldl_normStep_reverse _ _ hA, if_neg hout_ne]

/-- C4 machinery: posixpath.normpath is idempotent. -/
theorem normpath_idem (p : Str) : normpath (normpath p) = normpath p := by
  by_cases hp : p = []
  · subst hp
    decide
  · have hA : AccInv (initSlashes p != 0)
        ((splitOnSlash p).foldl (normStep (initSlashes p != 0)) []) :=
      AccInv_foldl _ _ _ (splitOnSlash_no_slash p) (AccInv_nil _)
    rw [normpath_eq p hp]
    by_cases hA0 : (splitOnSlash p).foldl (normStep (initSlashes p != 0)) [] = []
    · rw [normComps, hA0]
      simp only [List.reverse_nil, joinSlash, List.append_nil]
      have hcases : initSlashes p = 0 ∨ initSlashes p = 1 ∨ initSlashes p = 2 := by
        have := initSlashes_le_two p
        omega
      rcases hcases with h | h | h <;> rw [h] <;> decide
    · rw [normComps]
      have hgood := AccInv_elems _ _ hA
      have hCne : ((splitOnSlash p).foldl
          (normStep (initSlashes p != 0)) []).reverse ≠ [] := by
        simpa using hA0
      obtain ⟨ch, q, hjoin, hch⟩ := joinSlash_head _ hCne
        (fun c hc => ⟨(hgood c (List.mem_reverse.mp hc)).1,
          (hgood c (List.mem_reverse.mp hc)).2.2⟩)
      have hout_ne : List.replicate (initSlashes p) '/' ++
          joinSlash ((splitOnSlash p).foldl
            (normStep (initSlashes p != 0)) []).reverse ≠ [] := by
        rw [hjoin]
        simp
      rw [if_neg hout_ne]
      exact normpath_rebuild (initSlashes p) (initSlashes_le_two p) _ hA hA0

/-- A string has the single slash as prefix exactly when it starts with a
slash character. -/
theorem slash_prefix_iff (l : Str) :
    ['/'].isPrefixOf l = true ↔ ∃ t, l = '/' :: t := by
  match l with
  | [] => simp [List.isPrefixOf]
  | x :: xs =>
    constructor
    · intro hx
      have hx2 : '/' = x := by
        simpa [List.isPrefixOf] using hx
      exact ⟨xs, by rw [← hx2]⟩
    · rintro ⟨t, ht⟩
      rw [List.cons.injEq] at ht
      rw [ht.1]
      simp [List.isPrefixOf]

/-- posixpath.join returns an absolute second argument unchanged. -/
theorem pathJoin_of_abs (a b : Str) (h : ['/'].isPrefixOf b = true) :
    pathJoin a b = b := by
  rw [pathJoin, if_pos h]

/-- Joining anything onto an absolute path stays absolute. -/
theorem pathJoin_abs_left (a b : Str) (h : ['/'].isPrefixOf a = true) :
    ['/'].isPrefixOf (pathJoin a b) = true := by
  obtain ⟨t, rfl⟩ := (slash_prefix_iff a).mp h
  rw [pathJoin]
  split_ifs with h1 h2
  · exact h1
  · exact (slash_prefix_iff _).mpr ⟨t ++ b, by simp⟩
  · exact (slash_prefix_iff _).mpr ⟨t ++ '/' :: b, by simp⟩

/-- normpath maps absolute paths to absolute paths. -/
theorem normpath_abs (p : Str) (h : ['/'].isPrefixOf p = true) :
    ['/'].isPrefixOf (normpath p) = true := by
  obtain ⟨t, rfl⟩ := (slash_prefix_iff p).mp h
  have hp : ('/' :: t : Str) ≠ [] := by simp
  rw [normpath_eq _ hp]
  have hk : 1 ≤ initSlashes ('/' :: t) := by
    rw [initSlashes]
    split_ifs <;> omega
  obtain ⟨n, hn⟩ : ∃ n, initSlashes ('/' :: t) = n + 1 :=
    ⟨initSlashes ('/' :: t) - 1, by omega⟩
  rw [hn, List.replicate_succ, List.cons_append, if_neg (by simp)]
  exact (slash_prefix_iff _).mpr ⟨_, rfl⟩

/-- normpath never returns the empty string. -/
theorem normpath_ne_nil (p : Str) : normpath p ≠ [] := by
  rw [normpath]
  split_ifs with h1 h2
  · simp
  · simp
  · exact h2

/-- Rebasing one token twice onto an absolute build directory equals
rebasing it once. -/
theorem normalizeToken_idem (build_dir t : Str)
    (h : ['/'].isPrefixOf build_dir = true) :
    normalizeToken build_dir (normalizeToken build_dir t) =
      normalizeToken build_dir t := by
  by_cases hc : t.take 2 = ['-', 'I'] ∨ t.take 2 = ['-', 'L']
  · have hu : normalizeToken build_dir t =
        t.take 2 ++ normpath (pathJoin build_dir (t.drop 2)) := by
      unfold normalizeToken
      rw [if_pos hc]
    have htake : (t.take 2 ++ normpath (pathJoin build_dir (t.drop 2))).take 2 =
        t.take 2 := by
      rcases hc with hc | hc <;> rw [hc] <;> rfl
    have hdrop : (t.take 2 ++ normpath (pathJoin build_dir (t.drop 2))).drop 2 =
        normpath (pathJoin build_dir (t.drop 2)) := by
      rcases hc with hc | hc <;> rw [hc] <;> rfl
    rw [hu]
    unfold normalizeToken
    rw [htake, hdrop, if_pos hc]
    have habs : ['/'].isPrefixOf (normpath (pathJoin build_dir (t.drop 2))) =
        true :=
      normpath_abs _ (pathJoin_abs_left build_dir _ h)
    rw [pathJoin_of_abs _ _ habs, normpath_idem]
  · have hu : normalizeToken build_dir t = t := by
      unfold normalizeToken
      rw [if_neg hc]
    rw [hu]
    exact hu

/-- C4 counterexample: with the relative build directory b, the token -Ia is
rebased to -Ib/a by one application and to -Ib/b/a by a second, so the
operation is not idempotent for every build directory as the claim states. -/
theorem compute_parameters_not_idempotent :
    compute_parameters_with_absolute_paths
        (compute_parameters_with_absolute_paths [str "-Ia"] (str "b"))
        (str "b") ≠
      compute_parameters_with_absolute_paths [str "-Ia"] (str "b") := by
  decide

/-- C4 amended: when the build directory is an absolute path, applying
compute_parameters_with_absolute_paths twice with that build directory
yields the same result as applying it once. -/
theorem compute_parameters_idempotent_abs (parameter_list : List Str)
    (build_dir : Str) (h : ['/'].isPrefixOf build_dir = true) :
    compute_parameters_with_absolute_paths
        (compute_parameters_with_absolute_paths parameter_list build_dir)
        build_dir =
      compute_parameters_with_absolute_paths parameter_list build_dir := by
  unfold compute_parameters_with_absolute_paths
  rw [List.map_map]
  congr 1
  funext t
  exact normalizeToken_idem build_dir t h

/-- Witness for the amended C4 at a concrete list and absolute build
directory. -/
theorem compute_parameters_idempotent_abs_witness :
    ['/'].isPrefixOf (str "/b") = true ∧
    compute_parameters_with_absolute_paths
        (compute_parameters_with_absolute_paths [str "-Ia", str "x"]
          (str "/b")) (str "/b") =
      compute_parameters_with_absolute_paths [str "-Ia", str "x"] (str "/b") :=
  ⟨by decide, compute_parameters_idempotent_abs [str "-Ia", str "x"]
    (str "/b") (by decide)⟩

/-- initSlashes only inspects the first three characters. -/
theorem initSlashes_three (c1 c2 c3 : Char) (l l2 : Str) :
    initSlashes (c1 :: c2 :: c3 :: l) = initSlashes (c1 :: c2 :: c3 :: l2) := by
  simp [initSlashes, List.isPrefixOf]

/-- Appending a trailing slash to a nonempty path that does not already end
in a slash leaves the count of initial slashes unchanged. -/
theorem initSlashes_append_slash (bd : Str) (hne : bd ≠ [])
    (hlast : bd.getLast? ≠ some '/') :
    initSlashes (bd ++ ['/']) = initSlashes bd := by
  match bd, hne with
  | [c1], _ =>
    have hc1 : c1 ≠ '/' := by simpa using hlast
    simp [initSlashes, List.isPrefixOf, hc1, Ne.symm hc1]
  | [c1, c2], _ =>
    have hc2 : c2 ≠ '/' := by simpa using hlast
    simp [initSlashes, List.isPrefixOf, hc2, Ne.symm hc2]
  | c1 :: c2 :: c3 :: rest, _ =>
    have h1 : (c1 :: c2 :: c3 :: rest) ++ ['/'] =
        c1 :: c2 :: c3 :: (rest ++ ['/']) := rfl
    rw [h1]
    exact initSlashes_three c1 c2 c3 (rest ++ ['/']) rest

/-- The default head of an append with a nonempty left part. -/
theorem headI_append_ne_nil (l l2 : List Str) (h : l ≠ []) :
    (l ++ l2).headI = l.headI := by
  match l, h with
  | a :: rest, _ => rfl

/-- The tail of an append with a nonempty left part. -/
theorem tail_append_ne_nil (l l2 : List Str) (h : l ≠ []) :
    (l ++ l2).tail = l.tail ++ l2 := by
  match l, h with
  | a :: rest, _ => rfl

/-- Splitting after appending a trailing slash appends one empty
component. -/
theorem splitOnSlash_append_slash (bd : Str) :
    splitOnSlash (bd ++ ['/']) = splitOnSlash bd ++ [[]] := by
  induction bd with
  | nil => rfl
  | cons c rest ih =>
    by_cases hc : c = '/'
    · rw [List.cons_append]
      simp only [splitOnSlash, if_pos hc, ih]
      rfl
    · rw [List.cons_append]
      simp only [splitOnSlash, if_neg hc, ih]
      rw [headI_append_ne_nil _ _ (splitOnSlash_ne_nil rest),
        tail_append_ne_nil _ _ (splitOnSlash_ne_nil rest)]
      simp

/-- Normalizing with a trailing slash equals normalizing without it. -/
theorem normpath_append_slash (bd : Str) (hne : bd ≠ [])
    (hlast : bd.getLast? ≠ some '/') :
    normpath (bd ++ ['/']) = normpath bd := by
  have h1 : bd ++ ['/'] ≠ [] := by simp
  rw [normpath_eq _ h1, normpath_eq _ hne,
    initSlashes_append_slash bd hne hlast, splitOnSlash_append_slash bd,
    normComps, normComps, List.foldl_append]
  simp only [List.foldl_cons, List.foldl_nil, normStep_nil]

/-- Joining the empty path onto a directory and normalizing equals
normalizing the directory itself. -/
theorem normpath_pathJoin_nil (bd : Str) :
    normpath (pathJoin bd []) = normpath bd := by
  rw [pathJoin, if_neg (by simp [List.isPrefixOf])]
  by_cases h : bd = [] ∨ bd.getLast? = some '/'
  · rw [if_pos h, List.append_nil]
  · rw [if_neg h]
    push_neg at h
    exact normpath_append_slash bd h.1 h.2

/-- C9: a token that is exactly -I or exactly -L is not passed through
unchanged: it is replaced by the flag prefix concatenated with the
normalized build directory. -/
theorem compute_parameters_bare_flag (parameter_list : List Str)
    (build_dir : Str) (i : Nat) (pre : Str)
    (hpre : pre = ['-', 'I'] ∨ pre = ['-', 'L'])
    (h : parameter_list[i]? = some pre) :
    (compute_parameters_with_absolute_paths parameter_list build_dir)[i]? =
      some (pre ++ normpath build_dir) ∧
    (compute_parameters_with_absolute_paths parameter_list build_dir)[i]? ≠
      some pre := by
  have htok : normalizeToken build_dir pre = pre ++ normpath build_dir := by
    rcases hpre with rfl | rfl
    · unfold normalizeToken
      rw [if_pos (Or.inl (show List.take 2 (['-', 'I'] : Str) = ['-', 'I']
        from rfl))]
      show ['-', 'I'] ++ normpath (pathJoin build_dir []) = _
      rw [normpath_pathJoin_nil]
    · unfold normalizeToken
      rw [if_pos (Or.inr (show List.take 2 (['-', 'L'] : Str) = ['-', 'L']
        from rfl))]
      show ['-', 'L'] ++ normpath (pathJoin build_dir []) = _
      rw [normpath_pathJoin_nil]
  constructor
  · simp only [compute_parameters_with_absolute_paths, List.getElem?_map, h,
      Option.map_some', htok]
  · simp only [compute_parameters_with_absolute_paths, List.getElem?_map, h,
      Option.map_some', htok]
    intro hcontra
    have heq : pre ++ normpath build_dir = pre := Option.some.inj hcontra
    have hl := congrArg List.length heq
    simp only [List.length_append] at hl
    have h0 : (normpath build_dir).length = 0 := by omega
    exact normpath_ne_nil build_dir (List.length_eq_zero.mp h0)

/-- Witness for C9 at a concrete bare -I token and relative build
directory. -/
theorem compute_parameters_bare_flag_witness :
    ((['-', 'I'] : Str) = ['-', 'I'] ∨ (['-', 'I'] : Str) = ['-', 'L']) ∧
    ([['-', 'I'], str "x"] : List Str)[0]? = some ['-', 'I'] ∧
    ((compute_parameters_with_absolute_paths [['-', 'I'], str "x"]
        (str "b"))[0]? = some (['-', 'I'] ++ normpath (str "b")) ∧
      (compute_parameters_with_absolute_paths [['-', 'I'], str "x"]
        (str "b"))[0]? ≠ some ['-', 'I']) :=
  ⟨Or.inl rfl, by decide,
    compute_parameters_bare_flag [['-', 'I'], str "x"] (str "b") 0 ['-', 'I']
      (Or.inl rfl) (by decide)⟩

/-- rfind returns none exactly on strings not containing the character. -/
theorem rfind_eq_none (c : Char) (l : Str) (h : c ∉ l) : rfind c l = none := by
  induction l with
  | nil => rfl
  | cons a rest ih =>
    have ha : a ≠ c := fun he => h (he ▸ List.mem_cons_self a rest)
    have hr : c ∉ rest := fun hm => h (List.mem_cons_of_mem a hm)
    simp [rfind, ih hr, ha]

/-- A found index lies within the string. -/
theorem rfind_lt_length (c : Char) (l : Str) (i : Nat)
    (h : rfind c l = some i) : i < l.length := by
  induction l generalizing i with
  | nil => simp [rfind] at h
  | cons a rest ih =>
    simp only [rfind] at h
    cases hrest : rfind c rest with
    | some j =>
      rw [hrest] at h
      simp only [Option.some.injEq] at h
      have hj := ih j hrest
      simp only [List.length_cons]
      omega
    | none =>
      rw [hrest] at h
      by_cases ha : a = c
      · simp only [if_pos ha, Option.some.injEq] at h
        simp only [List.length_cons]
        omega
      · simp [if_neg ha] at h

/-- rfind over an append whose right part contains the character. -/
theorem rfind_append_right (c : Char) (xs ys : Str) (j : Nat)
    (h : rfind c ys = some j) :
    rfind c (xs ++ ys) = some (xs.length + j) := by
  induction xs with
  | nil => simpa using h
  | cons a rest ih =>
    rw [List.cons_append]
    simp only [rfind, ih]
    simp only [List.length_cons]
    congr 1
    omega

/-- rfind over an append whose right part lacks the character. -/
theorem rfind_append_left (c : Char) (xs ys : Str) (h : rfind c ys = none) :
    rfind c (xs ++ ys) = rfind c xs := by
  induction xs with
  | nil => simpa using h
  | cons a rest ih =>
    rw [List.cons_append]
    simp only [rfind, ih]

/-- splitext splits off an appended extension: a dot followed by a nonempty
dot-free slash-free tail, provided the last component of the stem is not
made of dots alone. -/
theorem splitext_append_ext (stem e : Str) (he : e ≠ []) (hdot : '.' ∉ e)
    (hsl : '/' ∉ e)
    (hbase : (lastComponent stem).all (fun c => c == '.') = false) :
    splitext (stem ++ '.' :: e) = (stem, '.' :: e) := by
  have hdotfind : rfind '.' (stem ++ '.' :: e) = some stem.length := by
    have h1 : rfind '.' ('.' :: e) = some 0 := by
      simp [rfind, rfind_eq_none '.' e hdot]
    simpa using rfind_append_right '.' stem ('.' :: e) 0 h1
  have hnos : '/' ∉ ('.' :: e : Str) := by
    intro hm
    rcases List.mem_cons.mp hm with hm | hm
    · exact absurd hm (by decide)
    · exact hsl hm
  have hsepfind : rfind '/' (stem ++ '.' :: e) = rfind '/' stem :=
    rfind_append_left '/' stem ('.' :: e) (rfind_eq_none '/' ('.' :: e) hnos)
  cases hs : rfind '/' stem with
  | none =>
    have hsep : rfind '/' (stem ++ '.' :: e) = none := by rw [hsepfind, hs]
    have hlast : lastComponent stem = stem := by
      rw [lastComponent, hs]
      rfl
    rw [hlast] at hbase
    simp only [splitext, hsep, hdotfind]
    rw [if_pos (by omega)]
    have hslice : ((stem ++ '.' :: e).drop ((-1 + 1 : Int)).toNat).take
        (((stem.length : Int)).toNat - ((-1 + 1 : Int)).toNat) = stem := by
      norm_num
    rw [hslice, if_neg (by simp [hbase])]
    rw [Int.toNat_natCast]
    rw [List.take_left, List.drop_left]
  | some si =>
    have hsi := rfind_lt_length '/' stem si hs
    have hsep : rfind '/' (stem ++ '.' :: e) = some si := by rw [hsepfind, hs]
    have hlast : lastComponent stem = stem.drop (si + 1) := by
      rw [lastComponent, hs]
    rw [hlast] at hbase
    simp only [splitext, hsep, hdotfind]
    rw [if_pos (by omega)]
    have htn : ((si : Int) + 1).toNat = si + 1 := by omega
    have hslice : ((stem ++ '.' :: e).drop (((si : Int) + 1)).toNat).take
        (((stem.length : Int)).toNat - (((si : Int) + 1)).toNat) =
          stem.drop (si + 1) := by
      rw [htn, Int.toNat_natCast]
      rw [List.drop_append_of_le_length (by omega)]
      rw [List.take_append_of_le_length (by simp)]
      have hlen : stem.length - (si + 1) = (stem.drop (si + 1)).length := by
        simp
      rw [hlen, List.take_length]
    rw [hslice, if_neg (by simp [hbase])]
    rw [Int.toNat_natCast]
    rw [List.take_left, List.drop_left]

/-- C3: get_dependency_gen_args returns the two-token list [-MT, d] where d
is the output target with its final extension replaced by .d, preserving
directory and base name; in particular for foo.o it yields foo.d, for every
second argument. -/
theorem dependency_gen_args_spec (stem e outfile : Str)
    (he : e ≠ []) (hdot : '.' ∉ e) (hsl : '/' ∉ e)
    (hbase : (lastComponent stem).all (fun c => c == '.') = false) :
    get_dependency_gen_args (stem ++ '.' :: e) outfile =
      [str "-MT", stem ++ str ".d"] ∧
    get_dependency_gen_args (str "foo.o") outfile =
      [str "-MT", str "foo.d"] := by
  constructor
  · rw [get_dependency_gen_args, depfile_for_object,
      splitext_append_ext stem e he hdot hsl hbase]
    simp [str, get_depfile_suffix]
  · rw [get_dependency_gen_args]
    decide

/-- Witness for C3 at the concrete path foo.o. -/
theorem dependency_gen_args_spec_witness :
    (['o'] : Str) ≠ [] ∧ '.' ∉ (['o'] : Str) ∧ '/' ∉ (['o'] : Str) ∧
    (lastComponent (str "foo")).all (fun c => c == '.') = false ∧
    (get_dependency_gen_args (str "foo" ++ '.' :: ['o']) (str "out") =
        [str "-MT", str "foo" ++ str ".d"] ∧
      get_dependency_gen_args (str "foo.o") (str "out") =
        [str "-MT", str "foo.d"]) :=
  ⟨by decide, by decide, by decide, by decide,
    dependency_gen_args_spec (str "foo") ['o'] (str "out") (by decide)
      (by decide) (by decide) (by decide)⟩

example : normpath (str "/b/../a") = str "/a" := by decide

example : normpath (str "b/a") = str "b/a" := by decide

example : normpath (str "") = str "." := by decide

example : normpath (str "//a/./b//c") = str "//a/b/c" := by decide

example : normpath (str "///a") = str "/a" := by decide

example : pathJoin (str "b") (str "b/a") = str "b/b/a" := by decide

example : splitext (str "foo.o") = (str "foo", str ".o") := by decide

example : splitext (str "/d/.o") = (str "/d/.o", str "") := by decide

example : splitext (str "a.b/c") = (str "a.b/c", str "") := by decide

example :
    compute_parameters_with_absolute_paths [str "-Ia"] (str "b") =
      [str "-Ib/a"] := by decide

end Cobol
